import Mathlib

/-!
# Verification of the scfw import/dispatch machinery

Shallow embedding of the core algorithms of the scfw shellcode framework
(`src/lib/include/scfw/...`) together with proofs of the behavioural claims
about them.  Bytes are modelled as `Nat` values below 256 (hypotheses state
the ASCII restrictions where a claim needs them); C strings are `List Nat`
of non-zero bytes with the terminator implicit; nullable pointers are
`Option Nat`.
-/

namespace Scfw

/-! ## FNV-1a hasher (`runtime/fnv1a.h`)

`fnv1a_hash` folds each byte case-insensitively: any byte `>= 'a'` (0x61)
gets 0x20 subtracted (there is deliberately no upper-bound check), then the
byte is XORed into the running 32-bit hash which is multiplied by the FNV
prime, all modulo 2^32. -/

def hash_fold (b : Nat) : Nat :=
  if 0x61 ≤ b then b - 0x20 else b

def fnv1a_step (hash : Nat) (b : Nat) : Nat :=
  ((hash ^^^ hash_fold b) * 0x01000193) % 2 ^ 32

def fnv1a_hash (s : List Nat) : Nat :=
  s.foldl fnv1a_step 0x811c9dc5

/-- `upper` maps only the lowercase letters a-z to A-Z, as in the claim. -/
def upperByte (b : Nat) : Nat :=
  if 0x61 ≤ b ∧ b ≤ 0x7A then b - 0x20 else b

/-- `lower` maps only the uppercase letters A-Z to a-z, as in the claim. -/
def lowerByte (b : Nat) : Nat :=
  if 0x41 ≤ b ∧ b ≤ 0x5A then b + 0x20 else b

lemma hash_fold_upperByte (b : Nat) (hb : b ≤ 0x7F) :
    hash_fold (upperByte b) = hash_fold b := by
  unfold hash_fold upperByte
  split_ifs <;> omega

lemma hash_fold_lowerByte (b : Nat) (hb : b ≤ 0x7F) :
    hash_fold (lowerByte b) = hash_fold b := by
  unfold hash_fold lowerByte
  split_ifs <;> omega

lemma foldl_fnv1a_map (f : Nat → Nat) (s : List Nat)
    (h : ∀ b ∈ s, hash_fold (f b) = hash_fold b) :
    ∀ a : Nat, (s.map f).foldl fnv1a_step a = s.foldl fnv1a_step a := by
  induction s with
  | nil => intro a; rfl
  | cons b rest ih =>
    intro a
    simp only [List.map_cons, List.foldl_cons]
    have hb : hash_fold (f b) = hash_fold b := h b (List.mem_cons_self b rest)
    have hstep : fnv1a_step a (f b) = fnv1a_step a b := by
      unfold fnv1a_step; rw [hb]
    rw [hstep]
    exact ih (fun c hc => h c (List.mem_cons_of_mem b hc)) _

lemma fnv1a_hash_map_congr (f : Nat → Nat) (s : List Nat)
    (h : ∀ b ∈ s, hash_fold (f b) = hash_fold b) :
    fnv1a_hash (s.map f) = fnv1a_hash s :=
  foldl_fnv1a_map f s h _

/-- C7: for ASCII-only input, the FNV-1a hash is invariant under both
uppercasing (a-z to A-Z) and lowercasing (A-Z to a-z) of the input,
because the hasher's case fold maps the original byte and its case-mapped
image to the same folded byte. -/
theorem fnv1a_case_insensitive (s : List Nat) (hs : ∀ b ∈ s, b ≤ 0x7F) :
    fnv1a_hash (s.map upperByte) = fnv1a_hash s ∧
    fnv1a_hash (s.map lowerByte) = fnv1a_hash s := by
  constructor
  · exact fnv1a_hash_map_congr upperByte s
      (fun b hb => hash_fold_upperByte b (hs b hb))
  · exact fnv1a_hash_map_congr lowerByte s
      (fun b hb => hash_fold_lowerByte b (hs b hb))

/-- C7 witness: the theorem applied to the concrete ASCII string
"Ab" = [0x41, 0x62]. -/
theorem fnv1a_case_insensitive_witness :
    fnv1a_hash ([0x41, 0x62].map upperByte) = fnv1a_hash [0x41, 0x62] ∧
    fnv1a_hash ([0x41, 0x62].map lowerByte) = fnv1a_hash [0x41, 0x62] :=
  fnv1a_case_insensitive [0x41, 0x62] (by decide)


/-! ## Case-insensitive comparator (`crt0.h`, `_stricmp`)

`_stricmp` folds each character by mapping only A-Z (0x41..0x5A) onto
a-z (adding 0x20), then compares folded characters until a mismatch or the
terminator.  Strings are byte lists without the implicit NUL terminator. -/

def cmp_fold (b : Nat) : Nat :=
  if 0x41 ≤ b ∧ b ≤ 0x5A then b + 0x20 else b

def stricmp : List Nat → List Nat → Int
  | [], [] => 0
  | [], d :: _ => (0 : Int) - (cmp_fold d : Int)
  | c :: _, [] => (cmp_fold c : Int)
  | c :: s, d :: t =>
    if cmp_fold c = cmp_fold d then stricmp s t
    else (cmp_fold c : Int) - (cmp_fold d : Int)

/-- C8 counterexample: the hasher's fold and the comparator's fold do not
agree on the full ASCII range: at the pair c = 0x5B and d = 0x7B
(the bytes of the characters left-bracket and left-brace, both at most
0x7F), the hasher's fold maps both to 0x5B while the comparator's fold
keeps them distinct, refuting the claimed equivalence. -/
theorem fold_agreement_counterexample :
    0x5B ≤ 0x7F ∧ 0x7B ≤ 0x7F ∧
    hash_fold 0x5B = hash_fold 0x7B ∧
    cmp_fold 0x5B ≠ cmp_fold 0x7B := by
  decide

lemma cmp_fold_pos {b : Nat} (hb : 0 < b) : 0 < cmp_fold b := by
  unfold cmp_fold; split_ifs <;> omega

set_option maxRecDepth 100000 in
/-- C8 amended: restricted to bytes at most 0x7A (ASCII minus the five
bytes 0x7B..0x7F), the two folds induce the same equivalence: for every
pair of such bytes the hasher's fold maps them to the same value iff the
comparator's fold does; and for strings of non-zero bytes at most 0x7A,
`_stricmp` returns 0 exactly when the hasher's folded byte sequences
coincide. -/
theorem fold_agreement_below_7B (c d : Nat) (s t : List Nat)
    (hc : c ≤ 0x7A) (hd : d ≤ 0x7A)
    (hs : ∀ b ∈ s, 0 < b ∧ b ≤ 0x7A) (ht : ∀ b ∈ t, 0 < b ∧ b ≤ 0x7A) :
    (hash_fold c = hash_fold d ↔ cmp_fold c = cmp_fold d) ∧
    (stricmp s t = 0 ↔ s.map hash_fold = t.map hash_fold) := by
  have aux : ∀ c < 0x7B, ∀ d < 0x7B,
      (hash_fold c = hash_fold d ↔ cmp_fold c = cmp_fold d) := by decide
  refine ⟨aux c (by omega) d (by omega), ?_⟩
  clear hc hd
  induction s generalizing t with
  | nil =>
    cases t with
    | nil => simp [stricmp]
    | cons d' t' =>
      simp only [stricmp, List.map_nil, List.map_cons]
      have hd' : 0 < cmp_fold d' := cmp_fold_pos (ht d' (by simp)).1
      constructor
      · intro h; omega
      · intro h; exact absurd h (by simp)
  | cons c' s' ih =>
    cases t with
    | nil =>
      simp only [stricmp, List.map_nil, List.map_cons]
      have hc' : 0 < cmp_fold c' := cmp_fold_pos (hs c' (by simp)).1
      constructor
      · intro h; omega
      · intro h; exact absurd h (by simp)
    | cons d' t' =>
      have hcd : hash_fold c' = hash_fold d' ↔ cmp_fold c' = cmp_fold d' :=
        aux c' (by have := (hs c' (by simp)).2; omega)
            d' (by have := (ht d' (by simp)).2; omega)
      simp only [stricmp, List.map_cons]
      split_ifs with heq
      · rw [ih t' (fun b hb => hs b (by simp [hb])) (fun b hb => ht b (by simp [hb]))]
        have hh : hash_fold c' = hash_fold d' := hcd.mpr heq
        simp [hh]
      · constructor
        · intro h
          exfalso
          apply heq
          omega
        · intro h
          rw [List.cons.injEq] at h
          exact absurd (hcd.mp h.1) heq

/-- C8 amended witness: the amended theorem applied at c = 0x41, d = 0x61
and the strings "aB" and "Ab" (all bytes non-zero and at most 0x7A). -/
theorem fold_agreement_below_7B_witness :
    (hash_fold 0x41 = hash_fold 0x61 ↔ cmp_fold 0x41 = cmp_fold 0x61) ∧
    (stricmp [0x61, 0x42] [0x41, 0x62] = 0 ↔
      [0x61, 0x42].map hash_fold = [0x41, 0x62].map hash_fold) :=
  fold_agreement_below_7B 0x41 0x61 [0x61, 0x42] [0x41, 0x62]
    (by decide) (by decide) (by decide) (by decide)


/-! ## Obfuscated string layer (`runtime/xorstr.h`)

A literal of N bytes (terminator included) is stored as the record
`[key][len][data...]` with `len = N - 1` and `data[i] = str[i] ^ key`.
For narrow strings every field is one byte; the key is derived from the
source line by `((line * 0x9E + 0x5A) | 1)` truncated to 8 bits. -/

def deriveKey (line : Nat) : Nat :=
  ((line * 0x9E + 0x5A) ||| 1) % 256

structure XorRecord where
  key : Nat
  len : Nat
  data : List Nat
  deriving DecidableEq

def xor_string (s : List Nat) (k : Nat) : XorRecord :=
  ⟨k, s.length % 256, (s ++ [0]).map (fun b => b ^^^ k)⟩

/-- `decode_xor`: if the stored key is non-zero, XOR the first `len + 1`
data bytes with it in place and zero the key; return the (possibly
updated) record together with the pointed-to data. -/
def decode_xor (r : XorRecord) : XorRecord × List Nat :=
  if r.key = 0 then (r, r.data)
  else
    let d := (r.data.take (r.len + 1)).map (fun b => b ^^^ r.key) ++
      r.data.drop (r.len + 1)
    (⟨0, r.len, d⟩, d)

/-- The record as it sits in the image, scanned byte-wise. -/
def recordBytes (r : XorRecord) : List Nat :=
  r.key :: r.len :: r.data

/-- Bounded byte-wise substring scan. -/
def containsSub (l sub : List Nat) : Bool :=
  (List.range (l.length + 1)).any (fun i => (l.drop i).take sub.length == sub)

/-- C9 counterexample: for the one-byte literal s = [0x01] encoded at
source line 61, the derived key is 1, and the encoded record (whose bytes
are [1, 1, 0, 1]) does contain s as a substring - both without and with
the terminator - refuting the claimed substring-freedom of the record. -/
theorem xorstr_substring_counterexample :
    deriveKey 61 = 1 ∧
    recordBytes (xor_string [1] (deriveKey 61)) = [1, 1, 0, 1] ∧
    containsSub (recordBytes (xor_string [1] (deriveKey 61))) [1] = true ∧
    containsSub (recordBytes (xor_string [1] (deriveKey 61))) [1, 0] = true := by
  decide

lemma deriveKey_ne_zero (line : Nat) : deriveKey line ≠ 0 := by
  unfold deriveKey
  intro h
  have h1 : ((line * 0x9E + 0x5A) ||| 1).testBit 0 = true := by
    simp [Nat.testBit_or]
  have h2 : ((line * 0x9E + 0x5A) ||| 1) % 2 = 1 := by
    simpa [Nat.testBit_zero] using h1
  omega

/-- C9 amended: for every literal s (non-zero bytes, length below 256)
and source line, the derived key is non-zero (bit 0 is forced set); the
first `decode_xor` returns the original bytes of s including the
terminator and zeroes the stored key; decoding an already-decoded record
changes nothing (idempotence); and every byte of the encoded data region
differs from the plaintext byte at the same offset, so s never appears at
its own position in the record - but, as the counterexample shows, an
adversarial literal can still occur as a substring of the full record
(key and length bytes included), so the unrestricted substring-freedom
stated by the claim does not hold. -/
theorem xorstr_decode_spec (s : List Nat) (line : Nat)
    (hlen : s.length < 256) (hs : ∀ b ∈ s, 0 < b) :
    deriveKey line ≠ 0 ∧
    decode_xor (xor_string s (deriveKey line)) =
      (⟨0, s.length, s ++ [0]⟩, s ++ [0]) ∧
    decode_xor (⟨0, s.length, s ++ [0]⟩ : XorRecord) =
      (⟨0, s.length, s ++ [0]⟩, s ++ [0]) ∧
    (∀ i < s.length + 1,
      (xor_string s (deriveKey line)).data.getD i 0 ≠ (s ++ [0]).getD i 0) := by
  set k := deriveKey line with hk
  have hkne : k ≠ 0 := deriveKey_ne_zero line
  have hmod : s.length % 256 = s.length := Nat.mod_eq_of_lt hlen
  have hdatalen : ((s ++ [0]).map (fun b => b ^^^ k)).length = s.length + 1 := by
    simp
  refine ⟨hkne, ?_, ?_, ?_⟩
  · unfold decode_xor xor_string
    simp only [hmod]
    rw [if_neg hkne]
    have htake : (((s ++ [0]).map (fun b => b ^^^ k)).take (s.length + 1)) =
        (s ++ [0]).map (fun b => b ^^^ k) := by
      rw [List.take_of_length_le (by rw [hdatalen])]
    have hdrop : (((s ++ [0]).map (fun b => b ^^^ k)).drop (s.length + 1)) = [] := by
      rw [List.drop_eq_nil_of_le (by rw [hdatalen])]
    simp only [htake, hdrop, List.append_nil, List.map_map]
    have hcancel : ((s ++ [0]).map ((fun b => b ^^^ k) ∘ fun b => b ^^^ k)) = s ++ [0] := by
      rw [List.map_congr_left (fun b _ => by
        simp only [Function.comp_apply]
        exact Nat.xor_cancel_right k b)]
      exact List.map_id _
    rw [hcancel]
  · unfold decode_xor
    rw [if_pos rfl]
  · intro i hi
    unfold xor_string
    have hi' : i < (s ++ [0]).length := by simpa using hi
    rw [List.getD_eq_getElem _ _ (by simpa using hi'), List.getD_eq_getElem _ _ hi']
    simp only [List.getElem_map]
    intro hcontra
    apply hkne
    calc k = ((s ++ [0])[i] ^^^ k) ^^^ (s ++ [0])[i] := by
          rw [Nat.xor_comm _ k, Nat.xor_assoc, Nat.xor_self, Nat.xor_zero]
      _ = (s ++ [0])[i] ^^^ (s ++ [0])[i] := by rw [hcontra]
      _ = 0 := Nat.xor_self _

/-- C9 witness: the amended theorem applied to the literal "Hi"
([0x48, 0x69]) at source line 7. -/
theorem xorstr_decode_spec_witness :
    deriveKey 7 ≠ 0 ∧
    decode_xor (xor_string [0x48, 0x69] (deriveKey 7)) =
      (⟨0, 2, [0x48, 0x69, 0]⟩, [0x48, 0x69, 0]) ∧
    decode_xor (⟨0, 2, [0x48, 0x69, 0]⟩ : XorRecord) =
      (⟨0, 2, [0x48, 0x69, 0]⟩, [0x48, 0x69, 0]) ∧
    (∀ i < 3,
      (xor_string [0x48, 0x69] (deriveKey 7)).data.getD i 0 ≠
        ([0x48, 0x69, 0] : List Nat).getD i 0) :=
  xorstr_decode_spec [0x48, 0x69] 7 (by decide) (by decide)

/-! ## Dispatch table init chain (`runtime.h`)

Entry ordinals are assigned densely in declaration order.  Entry `Id + 1`
first runs the init of entry `Id` (propagating a non-zero result), then
stores its own resolution result into its slot and returns its ordinal if
that result is null.  The base entry (ordinal 0) always returns 0.  We
model the per-entry resolution outcomes as a list `rs` of `Option Nat`
(the resolved pointer, `none` for a failed resolution), in ordinal order
starting at ordinal 1; `initFrom` returns the final slot values together
with the returned error code. -/

def initFrom : Nat → List (Option Nat) → List (Option Nat) × Nat
  | _, [] => ([], 0)
  | ord, r :: rest =>
    match r with
    | none => (none :: rest.map (fun _ => none), ord)
    | some v =>
      let (slots, err) := initFrom (ord + 1) rest
      (some v :: slots, err)

def initChain (rs : List (Option Nat)) : List (Option Nat) × Nat :=
  initFrom 1 rs

lemma initFrom_all_some (rs : List (Option Nat)) :
    ∀ ord, (∀ r ∈ rs, r.isSome) → initFrom ord rs = (rs, 0) := by
  induction rs with
  | nil => intro ord _; rfl
  | cons r rest ih =>
    intro ord h
    match r, h r (by simp) with
    | some v, _ =>
      unfold initFrom
      rw [ih (ord + 1) (fun r hr => h r (by simp [hr]))]

lemma initFrom_fail (rs : List (Option Nat)) :
    ∀ ord k, k < rs.length → rs.getD k (some 0) = none →
    (∀ j < k, (rs.getD j (some 0)).isSome) →
    (initFrom ord rs).2 = ord + k ∧
    (∀ j < k, (initFrom ord rs).1.getD j (some 0) = rs.getD j (some 0)) ∧
    (∀ j, k ≤ j → j < rs.length → (initFrom ord rs).1.getD j (some 0) = none) ∧
    (initFrom ord rs).1.length = rs.length := by
  induction rs with
  | nil => intro ord k hk; simp at hk
  | cons r rest ih =>
    intro ord k hk hnone hbefore
    cases k with
    | zero =>
      have hr : r = none := by simpa using hnone
      subst hr
      refine ⟨by simp [initFrom], by simp, ?_, by simp [initFrom]⟩
      intro j _ hj
      cases j with
      | zero => simp [initFrom]
      | succ j' =>
        simp only [initFrom]
        simp only [List.getD_cons_succ]
        rw [List.getD_eq_getElem _ _ (by simpa using hj)]
        simp
    | succ k' =>
      have hr : r.isSome := by
        have := hbefore 0 (Nat.succ_pos k')
        simpa using this
      match r, hr with
      | some v, _ =>
        have hk' : k' < rest.length := by simpa using hk
        have hnone' : rest.getD k' (some 0) = none := by simpa using hnone
        have hbefore' : ∀ j < k', (rest.getD j (some 0)).isSome := by
          intro j hj
          have := hbefore (j + 1) (by omega)
          simpa using this
        obtain ⟨h1, h2, h3, h4⟩ := ih (ord + 1) k' hk' hnone' hbefore'
        refine ⟨?_, ?_, ?_, ?_⟩
        · simp only [initFrom]
          omega
        · intro j hj
          cases j with
          | zero => simp [initFrom]
          | succ j' =>
            simp only [initFrom, List.getD_cons_succ]
            exact h2 j' (by omega)
        · intro j hjk hjlen
          cases j with
          | zero => omega
          | succ j' =>
            simp only [initFrom, List.getD_cons_succ]
            exact h3 j' (by omega) (by simpa using hjlen)
        · simp only [initFrom]
          simpa using h4

/-- C1: if every declared import resolves, `init` returns 0 and the slot
list equals the (all non-null) resolution results; if the entry at
zero-based position k is the first whose resolution is null, `init`
returns its ordinal k + 1 (non-zero), the slots of entries with smaller
ordinals hold their non-null resolved values, and the slots at position k
and beyond keep their zero-initialized (null) contents. -/
theorem init_chain_spec (rs : List (Option Nat)) :
    ((∀ r ∈ rs, r.isSome) → initChain rs = (rs, 0)) ∧
    (∀ k, k < rs.length → rs.getD k (some 0) = none →
      (∀ j < k, (rs.getD j (some 0)).isSome) →
      (initChain rs).2 = k + 1 ∧ (initChain rs).2 ≠ 0 ∧
      (∀ j < k, (initChain rs).1.getD j (some 0) = rs.getD j (some 0) ∧
        ((initChain rs).1.getD j (some 0)).isSome) ∧
      (∀ j, k ≤ j → j < rs.length → (initChain rs).1.getD j (some 0) = none)) := by
  constructor
  · exact initFrom_all_some rs 1
  · intro k hk hnone hbefore
    obtain ⟨h1, h2, h3, _⟩ := initFrom_fail rs 1 k hk hnone hbefore
    refine ⟨by rw [initChain, h1]; omega, by rw [initChain, h1]; omega, ?_, ?_⟩
    · intro j hj
      refine ⟨h2 j hj, ?_⟩
      rw [initChain, h2 j hj]
      exact hbefore j hj
    · exact h3

/-- C1 witness: the theorem applied to the concrete resolution list
[some 5, none, some 3]: the first conjunct's hypothesis fails, so we
exercise the failure branch at k = 1 - init returns ordinal 2, entry 1's
slot keeps its value, entries 2 and 3 stay null. -/
theorem init_chain_spec_witness :
    (initChain [some 5, none, some 3]).2 = 2 ∧
    (initChain [some 5, none, some 3]).1.getD 0 (some 0) = some 5 ∧
    (initChain [some 5, none, some 3]).1.getD 1 (some 0) = none ∧
    (initChain [some 5, none, some 3]).1.getD 2 (some 0) = none := by
  obtain ⟨_, hfail⟩ := init_chain_spec [some 5, none, some 3]
  obtain ⟨h1, _, h3, h4⟩ := hfail 1 (by decide) (by decide) (by decide)
  exact ⟨h1, (h3 0 (by decide)).1.trans (by decide),
    h4 1 (by decide) (by decide), h4 2 (by decide) (by decide)⟩

/-! ## Generated `_entry` shim (`IMPORT_END`, `runtime.h`)

`_entry` obtains the live dispatch-table pointer, calls `init`; on a
non-zero result it returns at once, otherwise it calls the user body and
then `destroy`.  We record the calls it makes as a trace. -/

inductive EntryEv where
  | initCall
  | userBody
  | destroyCall
  deriving DecidableEq

def entryRun (rs : List (Option Nat)) : List EntryEv :=
  let err := (initChain rs).2
  if err ≠ 0 then [EntryEv.initCall]
  else [EntryEv.initCall, EntryEv.userBody, EntryEv.destroyCall]

/-- C2: `_entry` always invokes `init` exactly once and first; when `init`
returns non-zero, neither the user body nor `destroy` is invoked; when
`init` returns zero, the user body is invoked exactly once and then
`destroy` exactly once, in that order. -/
theorem entry_shim_spec (rs : List (Option Nat)) :
    (entryRun rs).head? = some EntryEv.initCall ∧
    (entryRun rs).count EntryEv.initCall = 1 ∧
    ((initChain rs).2 ≠ 0 →
      (entryRun rs).count EntryEv.userBody = 0 ∧
      (entryRun rs).count EntryEv.destroyCall = 0) ∧
    ((initChain rs).2 = 0 →
      entryRun rs = [EntryEv.initCall, EntryEv.userBody, EntryEv.destroyCall] ∧
      (entryRun rs).count EntryEv.userBody = 1 ∧
      (entryRun rs).count EntryEv.destroyCall = 1) := by
  unfold entryRun
  by_cases h : (initChain rs).2 = 0 <;> simp [h, List.count_cons]

/-- C2 witness: the theorem applied at the resolution list [none], whose
init fails with ordinal 1, and at [some 1], whose init succeeds. -/
theorem entry_shim_spec_witness :
    ((entryRun [none]).count EntryEv.userBody = 0 ∧
      (entryRun [none]).count EntryEv.destroyCall = 0) ∧
    entryRun [some 1] =
      [EntryEv.initCall, EntryEv.userBody, EntryEv.destroyCall] :=
  ⟨(entry_shim_spec [none]).2.2.1 (by decide),
    ((entry_shim_spec [some 1]).2.2.2 (by decide)).1⟩

/-! ## Base-level init (`usermode.h` / `kernelmode.h`)

`dispatch_table_impl<0>::init` populates the optional header slots.  In
user mode (all features enabled) it locates kernel32 and resolves
`VirtualFree`, `GetProcAddress`, `LoadLibraryA`, `FreeLibrary`; in kernel
mode it resolves `ExFreePool` from the kernel base and stores the kernel
base.  Neither checks any result and both return 0 unconditionally.  The
resolution environment is abstracted as a module finder and a symbol
finder over hashes; looking a symbol up in a null module yields null. -/

structure ResolveEnv where
  findModuleByHash : Nat → Option Nat
  lookupSymbolByHash : Option Nat → Nat → Option Nat
  lookup_null : ∀ h, lookupSymbolByHash none h = none

structure UserHeader where
  cleanup : Option Nat
  free : Option Nat
  load_module : Option Nat
  unload_module : Option Nat
  lookup_symbol : Option Nat

/-- FNV-1a of "kernel32.dll" = [6B 65 72 6E 65 6C 33 32 2E 64 6C 6C]. -/
def kernel32_hash : Nat :=
  fnv1a_hash [0x6B, 0x65, 0x72, 0x6E, 0x65, 0x6C, 0x33, 0x32, 0x2E, 0x64, 0x6C, 0x6C]

/-- FNV-1a of "VirtualFree". -/
def virtualFree_hash : Nat :=
  fnv1a_hash [0x56, 0x69, 0x72, 0x74, 0x75, 0x61, 0x6C, 0x46, 0x72, 0x65, 0x65]

/-- FNV-1a of "GetProcAddress". -/
def getProcAddress_hash : Nat :=
  fnv1a_hash [0x47, 0x65, 0x74, 0x50, 0x72, 0x6F, 0x63, 0x41, 0x64, 0x64,
    0x72, 0x65, 0x73, 0x73]

/-- FNV-1a of "LoadLibraryA". -/
def loadLibraryA_hash : Nat :=
  fnv1a_hash [0x4C, 0x6F, 0x61, 0x64, 0x4C, 0x69, 0x62, 0x72, 0x61, 0x72,
    0x79, 0x41]

/-- FNV-1a of "FreeLibrary". -/
def freeLibrary_hash : Nat :=
  fnv1a_hash [0x46, 0x72, 0x65, 0x65, 0x4C, 0x69, 0x62, 0x72, 0x61, 0x72, 0x79]

/-- FNV-1a of "ExFreePool". -/
def exFreePool_hash : Nat :=
  fnv1a_hash [0x45, 0x78, 0x46, 0x72, 0x65, 0x65, 0x50, 0x6F, 0x6F, 0x6C]

/-- Address of the assembly stub `_cleanup_usermode` / `_cleanup_kernelmode`
(always available in the image; any non-null marker works). -/
def cleanupStubAddr : Nat := 1

def usermodeBaseInit (env : ResolveEnv) : UserHeader × Nat :=
  let kernel32 := env.findModuleByHash kernel32_hash
  (⟨some cleanupStubAddr,
    env.lookupSymbolByHash kernel32 virtualFree_hash,
    env.lookupSymbolByHash kernel32 loadLibraryA_hash,
    env.lookupSymbolByHash kernel32 freeLibrary_hash,
    env.lookupSymbolByHash kernel32 getProcAddress_hash⟩, 0)

structure KernelHeader where
  cleanup : Option Nat
  free : Option Nat
  kernel_base : Option Nat

def kernelmodeBaseInit (env : ResolveEnv) (argument1 : Option Nat) :
    KernelHeader × Nat :=
  (⟨some cleanupStubAddr,
    env.lookupSymbolByHash argument1 exFreePool_hash,
    argument1⟩, 0)

/-- C10: the base-level init returns 0 unconditionally in both user mode
and kernel mode; a failed kernel32 lookup or a failed header-symbol
resolution merely leaves the corresponding header slot null and is never
surfaced as a non-zero result, and any non-zero result of the full init
chain comes from a per-import entry (it equals the ordinal of a failed
module or symbol entry). -/
theorem base_init_returns_zero (env : ResolveEnv) (arg1 : Option Nat)
    (rs : List (Option Nat)) :
    (usermodeBaseInit env).2 = 0 ∧
    (kernelmodeBaseInit env arg1).2 = 0 ∧
    (env.findModuleByHash kernel32_hash = none →
      (usermodeBaseInit env).1.free = none ∧
      (usermodeBaseInit env).1.load_module = none ∧
      (usermodeBaseInit env).1.unload_module = none ∧
      (usermodeBaseInit env).1.lookup_symbol = none) ∧
    ((initChain rs).2 ≠ 0 → ∃ k, k < rs.length ∧
      rs.getD k (some 0) = none ∧ (initChain rs).2 = k + 1) := by
  refine ⟨rfl, rfl, ?_, ?_⟩
  · intro hk32
    unfold usermodeBaseInit
    simp [hk32, env.lookup_null]
  · intro herr
    by_cases hall : ∀ r ∈ rs, r.isSome
    · exact absurd (by unfold initChain; rw [initFrom_all_some rs 1 hall]) herr
    · push_neg at hall
      obtain ⟨r, hr, hrnone⟩ := hall
      have hex : ∃ k, k < rs.length ∧ rs.getD k (some 0) = none := by
        obtain ⟨k, hk, hkr⟩ := List.mem_iff_getElem.mp hr
        exact ⟨k, hk, by
          rw [List.getD_eq_getElem _ _ hk, hkr]
          simpa using hrnone⟩
      have hspec := Nat.find_spec hex
      have hmin : ∀ j < Nat.find hex, ¬(j < rs.length ∧ rs.getD j (some 0) = none) :=
        fun j hj => Nat.find_min hex hj
      have hbefore : ∀ j < Nat.find hex, (rs.getD j (some 0)).isSome := by
        intro j hj
        by_contra hcontra
        refine hmin j hj ⟨by omega, ?_⟩
        cases hgd : rs.getD j (some 0) with
        | none => rfl
        | some v => rw [hgd] at hcontra; simp at hcontra
      obtain ⟨h1, _, _, _⟩ := initFrom_fail rs 1 (Nat.find hex) hspec.1 hspec.2 hbefore
      refine ⟨Nat.find hex, hspec.1, hspec.2, ?_⟩
      unfold initChain
      omega

/-- C10 witness: the theorem applied to the environment that resolves
nothing, with kernel base argument null and the one-entry resolution list
[none]: both base inits return 0 while every optional user-mode header
slot is null, and the chain error 1 points at entry 1. -/
theorem base_init_returns_zero_witness :
    (usermodeBaseInit ⟨fun _ => none, fun _ _ => none, fun _ => rfl⟩).2 = 0 ∧
    (kernelmodeBaseInit ⟨fun _ => none, fun _ _ => none, fun _ => rfl⟩ none).2 = 0 ∧
    ((usermodeBaseInit ⟨fun _ => none, fun _ _ => none, fun _ => rfl⟩).1.free = none ∧
      (usermodeBaseInit ⟨fun _ => none, fun _ _ => none, fun _ => rfl⟩).1.load_module = none ∧
      (usermodeBaseInit ⟨fun _ => none, fun _ _ => none, fun _ => rfl⟩).1.unload_module = none ∧
      (usermodeBaseInit ⟨fun _ => none, fun _ _ => none, fun _ => rfl⟩).1.lookup_symbol = none) ∧
    ∃ k, k < ([none] : List (Option Nat)).length ∧
      ([none] : List (Option Nat)).getD k (some 0) = none ∧ (initChain [none]).2 = k + 1 := by
  obtain ⟨h1, h2, h3, h4⟩ :=
    base_init_returns_zero ⟨fun _ => none, fun _ _ => none, fun _ => rfl⟩ none [none]
  exact ⟨h1, h2, h3 rfl, h4 (by decide)⟩

/-! ## Flag inheritance and symbol resolution strategy (`runtime.h`)

`lookup_flags<Id, Mode, EntryKind>` walks the chain backwards from entry
`Id` and returns the flags of the nearest entry of the requested kind
(0 when none exists).  A symbol entry at ordinal `Id + 1` chooses dynamic
resolution when its own flags or the nearest preceding module's flags
have the DYNAMIC_RESOLVE bit, else PE parse with string compare when one
of them has the STRING_SYMBOL bit, else PE parse with the FNV-1a hash.
Entries are listed with the entry of ordinal `i + 1` at index `i`. -/

def SCFW_FLAG_DYNAMIC_RESOLVE : Nat := 0x01
def SCFW_FLAG_STRING_SYMBOL : Nat := 0x10

inductive EntryKind where
  | moduleEntry
  | symbolEntry
  deriving DecidableEq

structure EntrySpec where
  kind : EntryKind
  flags : Nat
  deriving DecidableEq

def lookup_flags (entries : List EntrySpec) (kind : EntryKind) : Nat → Nat
  | 0 => 0
  | id + 1 =>
    if (entries.getD id ⟨EntryKind.symbolEntry, 0⟩).kind = kind then
      (entries.getD id ⟨EntryKind.symbolEntry, 0⟩).flags
    else
      lookup_flags entries kind id

inductive Strategy where
  | dynamicResolve
  | peString
  | peHash
  deriving DecidableEq

/-- Strategy selection of `SCFW_IMPORT_SYMBOL::init` for the symbol at
ordinal `id + 1` whose own flag word is `f`. -/
def symbolStrategy (entries : List EntrySpec) (id : Nat) (f : Nat) : Strategy :=
  if f &&& SCFW_FLAG_DYNAMIC_RESOLVE ≠ 0 ∨
      lookup_flags entries EntryKind.moduleEntry id &&& SCFW_FLAG_DYNAMIC_RESOLVE ≠ 0 then
    Strategy.dynamicResolve
  else if f &&& SCFW_FLAG_STRING_SYMBOL ≠ 0 ∨
      lookup_flags entries EntryKind.moduleEntry id &&& SCFW_FLAG_STRING_SYMBOL ≠ 0 then
    Strategy.peString
  else
    Strategy.peHash

/-- Modelled from the spec: a symbol entry's effective flags are the
bitwise OR of its own flags with the DYNAMIC_RESOLVE and STRING_SYMBOL
bits of the nearest preceding module entry. -/
def effectiveFlags (entries : List EntrySpec) (id : Nat) (f : Nat) : Nat :=
  f ||| (lookup_flags entries EntryKind.moduleEntry id &&&
    (SCFW_FLAG_DYNAMIC_RESOLVE ||| SCFW_FLAG_STRING_SYMBOL))

lemma and_two_pow_ne_zero (x i : Nat) : x &&& 2 ^ i ≠ 0 ↔ x.testBit i = true := by
  rw [Nat.and_two_pow]
  cases h : x.testBit i <;> simp [h]

lemma effectiveFlags_bit_DR (entries : List EntrySpec) (id f : Nat) :
    (effectiveFlags entries id f &&& SCFW_FLAG_DYNAMIC_RESOLVE ≠ 0) ↔
    (f &&& SCFW_FLAG_DYNAMIC_RESOLVE ≠ 0 ∨
      lookup_flags entries EntryKind.moduleEntry id &&& SCFW_FLAG_DYNAMIC_RESOLVE ≠ 0) := by
  have h1 : SCFW_FLAG_DYNAMIC_RESOLVE = 2 ^ 0 := rfl
  rw [h1, and_two_pow_ne_zero, and_two_pow_ne_zero, and_two_pow_ne_zero]
  unfold effectiveFlags
  rw [Nat.testBit_or, Nat.testBit_and]
  simp [SCFW_FLAG_DYNAMIC_RESOLVE, SCFW_FLAG_STRING_SYMBOL]

lemma effectiveFlags_bit_SS (entries : List EntrySpec) (id f : Nat) :
    (effectiveFlags entries id f &&& SCFW_FLAG_STRING_SYMBOL ≠ 0) ↔
    (f &&& SCFW_FLAG_STRING_SYMBOL ≠ 0 ∨
      lookup_flags entries EntryKind.moduleEntry id &&& SCFW_FLAG_STRING_SYMBOL ≠ 0) := by
  have h1 : SCFW_FLAG_STRING_SYMBOL = 2 ^ 4 := rfl
  have h17 : Nat.testBit (SCFW_FLAG_DYNAMIC_RESOLVE ||| SCFW_FLAG_STRING_SYMBOL) 4 = true := by
    decide
  rw [h1, and_two_pow_ne_zero, and_two_pow_ne_zero, and_two_pow_ne_zero]
  unfold effectiveFlags
  rw [Nat.testBit_or, Nat.testBit_and, h17]
  simp

lemma lookup_flags_nearest (entries : List EntrySpec) (kind : EntryKind) :
    ∀ id j, j < id →
    (entries.getD j ⟨EntryKind.symbolEntry, 0⟩).kind = kind →
    (∀ j', j < j' → j' < id →
      (entries.getD j' ⟨EntryKind.symbolEntry, 0⟩).kind ≠ kind) →
    lookup_flags entries kind id = (entries.getD j ⟨EntryKind.symbolEntry, 0⟩).flags := by
  intro id
  induction id with
  | zero => intro j hj; omega
  | succ id' ih =>
    intro j hj hkind hafter
    show (if (entries.getD id' ⟨EntryKind.symbolEntry, 0⟩).kind = kind then
        (entries.getD id' ⟨EntryKind.symbolEntry, 0⟩).flags
      else lookup_flags entries kind id') = _
    by_cases hj' : j = id'
    · subst hj'
      rw [if_pos hkind]
    · have hne : (entries.getD id' ⟨EntryKind.symbolEntry, 0⟩).kind ≠ kind :=
        hafter id' (by omega) (by omega)
      rw [if_neg hne]
      exact ih j (by omega) hkind (fun j' h1 h2 => hafter j' h1 (by omega))

lemma lookup_flags_none (entries : List EntrySpec) (kind : EntryKind) :
    ∀ id, (∀ j < id, (entries.getD j ⟨EntryKind.symbolEntry, 0⟩).kind ≠ kind) →
    lookup_flags entries kind id = 0 := by
  intro id
  induction id with
  | zero => intro _; rfl
  | succ id' ih =>
    intro h
    show (if (entries.getD id' ⟨EntryKind.symbolEntry, 0⟩).kind = kind then
        (entries.getD id' ⟨EntryKind.symbolEntry, 0⟩).flags
      else lookup_flags entries kind id') = 0
    rw [if_neg (h id' (by omega))]
    exact ih (fun j hj => h j (by omega))

/-- C3: the resolution strategy of a symbol entry is exactly the one
selected from its effective flags - the bitwise OR of its own flags with
the DYNAMIC_RESOLVE and STRING_SYMBOL bits of the nearest preceding
module entry: effective DYNAMIC_RESOLVE picks the header lookup pointer,
otherwise effective STRING_SYMBOL picks PE parse with string compare,
otherwise PE parse with the name hash; `lookup_flags` indeed returns the
nearest preceding module's flags (0 when there is none); and a
symbol-declared STRING_SYMBOL is never downgraded by a parent module
without flags. -/
theorem symbol_strategy_spec (entries : List EntrySpec) (id f : Nat) :
    (symbolStrategy entries id f =
      if effectiveFlags entries id f &&& SCFW_FLAG_DYNAMIC_RESOLVE ≠ 0 then
        Strategy.dynamicResolve
      else if effectiveFlags entries id f &&& SCFW_FLAG_STRING_SYMBOL ≠ 0 then
        Strategy.peString
      else
        Strategy.peHash) ∧
    (∀ j, j < id →
      (entries.getD j ⟨EntryKind.symbolEntry, 0⟩).kind = EntryKind.moduleEntry →
      (∀ j', j < j' → j' < id →
        (entries.getD j' ⟨EntryKind.symbolEntry, 0⟩).kind ≠ EntryKind.moduleEntry) →
      lookup_flags entries EntryKind.moduleEntry id =
        (entries.getD j ⟨EntryKind.symbolEntry, 0⟩).flags) ∧
    ((∀ j < id, (entries.getD j ⟨EntryKind.symbolEntry, 0⟩).kind ≠
        EntryKind.moduleEntry) →
      lookup_flags entries EntryKind.moduleEntry id = 0) ∧
    (f &&& SCFW_FLAG_STRING_SYMBOL ≠ 0 →
      f &&& SCFW_FLAG_DYNAMIC_RESOLVE = 0 →
      lookup_flags entries EntryKind.moduleEntry id &&& SCFW_FLAG_DYNAMIC_RESOLVE = 0 →
      symbolStrategy entries id f = Strategy.peString) := by
  refine ⟨?_, ?_, ?_, ?_⟩
  · unfold symbolStrategy
    by_cases hdr : f &&& SCFW_FLAG_DYNAMIC_RESOLVE ≠ 0 ∨
        lookup_flags entries EntryKind.moduleEntry id &&& SCFW_FLAG_DYNAMIC_RESOLVE ≠ 0
    · rw [if_pos hdr, if_pos ((effectiveFlags_bit_DR entries id f).mpr hdr)]
    · rw [if_neg hdr, if_neg (fun h => hdr ((effectiveFlags_bit_DR entries id f).mp h))]
      by_cases hss : f &&& SCFW_FLAG_STRING_SYMBOL ≠ 0 ∨
          lookup_flags entries EntryKind.moduleEntry id &&& SCFW_FLAG_STRING_SYMBOL ≠ 0
      · rw [if_pos hss, if_pos ((effectiveFlags_bit_SS entries id f).mpr hss)]
      · rw [if_neg hss, if_neg (fun h => hss ((effectiveFlags_bit_SS entries id f).mp h))]
  · intro j h1 h2 h3
    exact lookup_flags_nearest entries EntryKind.moduleEntry id j h1 h2 h3
  · exact lookup_flags_none entries EntryKind.moduleEntry id
  · intro hss hdr hmdr
    unfold symbolStrategy
    rw [if_neg (by push_neg; exact ⟨hdr, hmdr⟩), if_pos (Or.inl hss)]

/-- C3 witness: the theorem applied to the chain
[module flags 0x01, symbol flags 0, symbol flags 0x10] at the ordinal of
the last symbol (id = 3) with its own flags f = 0x10: the nearest module
(index 0) carries DYNAMIC_RESOLVE, and the no-downgrade clause applies to
the chain [module flags 0] with f = 0x10. -/
theorem symbol_strategy_spec_witness :
    (symbolStrategy
      [⟨EntryKind.moduleEntry, 0x01⟩, ⟨EntryKind.symbolEntry, 0⟩,
        ⟨EntryKind.symbolEntry, 0x10⟩] 3 0x10 =
      if effectiveFlags
          [⟨EntryKind.moduleEntry, 0x01⟩, ⟨EntryKind.symbolEntry, 0⟩,
            ⟨EntryKind.symbolEntry, 0x10⟩] 3 0x10 &&&
          SCFW_FLAG_DYNAMIC_RESOLVE ≠ 0 then
        Strategy.dynamicResolve
      else if effectiveFlags
          [⟨EntryKind.moduleEntry, 0x01⟩, ⟨EntryKind.symbolEntry, 0⟩,
            ⟨EntryKind.symbolEntry, 0x10⟩] 3 0x10 &&&
          SCFW_FLAG_STRING_SYMBOL ≠ 0 then
        Strategy.peString
      else
        Strategy.peHash) ∧
    lookup_flags [⟨EntryKind.moduleEntry, 0x01⟩, ⟨EntryKind.symbolEntry, 0⟩,
      ⟨EntryKind.symbolEntry, 0x10⟩] EntryKind.moduleEntry 3 = 0x01 ∧
    symbolStrategy [⟨EntryKind.moduleEntry, 0⟩] 1 0x10 = Strategy.peString := by
  obtain ⟨h1, h2, _, _⟩ := symbol_strategy_spec
    [⟨EntryKind.moduleEntry, 0x01⟩, ⟨EntryKind.symbolEntry, 0⟩,
      ⟨EntryKind.symbolEntry, 0x10⟩] 3 0x10
  obtain ⟨_, _, _, h4⟩ := symbol_strategy_spec [⟨EntryKind.moduleEntry, 0⟩] 1 0x10
  exact ⟨h1, (h2 0 (by omega) (by decide)
      (by intro j' hlt hlt3; interval_cases j' <;> decide)).trans (by decide),
    h4 (by decide) (by decide) (by decide)⟩

/-! ## PE export lookup (`platform/windows/common.h`, `lookup_symbol_impl`)

The scan runs `Index` from `NumberOfNames` downwards (`Index--`), so the
first name tested is the one at index `NumberOfNames - 1`; on the first
comparator match at index `i` it returns
`module_base + Functions[Ordinals[i]]`, and `nullptr` when no name
matches.  The comparator is either byte-exact strcmp against a literal or
an FNV-1a hash compare. -/

structure ExportTable where
  names : List (List Nat)
  ordinals : List Nat
  functions : List Nat

def exportRVA (tbl : ExportTable) (i : Nat) : Nat :=
  tbl.functions.getD (tbl.ordinals.getD i 0) 0

def scanNames (base : Nat) (tbl : ExportTable) (cmp : List Nat → Bool) :
    Nat → Option Nat
  | 0 => none
  | i + 1 =>
    if cmp (tbl.names.getD i []) then some (base + exportRVA tbl i)
    else scanNames base tbl cmp i

def lookup_symbol_impl (base : Nat) (tbl : ExportTable)
    (cmp : List Nat → Bool) : Option Nat :=
  scanNames base tbl cmp tbl.names.length

/-- strcmp comparator: match when the export name equals the literal. -/
def lookup_symbol_name (base : Nat) (tbl : ExportTable) (name : List Nat) :
    Option Nat :=
  lookup_symbol_impl base tbl (fun e => e == name)

/-- hash comparator: match when the export name hashes to the request. -/
def lookup_symbol_hash (base : Nat) (tbl : ExportTable) (h : Nat) :
    Option Nat :=
  lookup_symbol_impl base tbl (fun e => fnv1a_hash e == h)

lemma scanNames_eq_none (base : Nat) (tbl : ExportTable)
    (cmp : List Nat → Bool) :
    ∀ n, scanNames base tbl cmp n = none ↔
      ∀ i < n, cmp (tbl.names.getD i []) = false := by
  intro n
  induction n with
  | zero => simp [scanNames]
  | succ m ih =>
    show (if cmp (tbl.names.getD m []) then some (base + exportRVA tbl m)
      else scanNames base tbl cmp m) = none ↔ _
    by_cases hm : cmp (tbl.names.getD m []) = true
    · rw [if_pos hm]
      constructor
      · intro h; exact absurd h (by simp)
      · intro h; exact absurd (h m (by omega)) (by rw [hm]; simp)
    · rw [if_neg hm, ih]
      constructor
      · intro h i hi
        rcases Nat.lt_succ_iff_lt_or_eq.mp hi with hlt | heq
        · exact h i hlt
        · subst heq; simpa using hm
      · intro h i hi
        exact h i (by omega)

lemma scanNames_top_match (base : Nat) (tbl : ExportTable)
    (cmp : List Nat → Bool) :
    ∀ n i, i < n → cmp (tbl.names.getD i []) = true →
    (∀ j, i < j → j < n → cmp (tbl.names.getD j []) = false) →
    scanNames base tbl cmp n = some (base + exportRVA tbl i) := by
  intro n
  induction n with
  | zero => intro i hi; omega
  | succ m ih =>
    intro i hi hcmp hafter
    show (if cmp (tbl.names.getD m []) then some (base + exportRVA tbl m)
      else scanNames base tbl cmp m) = _
    by_cases him : i = m
    · subst him
      rw [if_pos hcmp]
    · have hm : cmp (tbl.names.getD m []) = false :=
        hafter m (by omega) (by omega)
      rw [if_neg (by rw [hm]; simp)]
      exact ih i (by omega) hcmp (fun j h1 h2 => hafter j h1 (by omega))

/-- C4: `lookup_symbol_impl` returns null exactly when no export name
matches the comparator; and whenever index `i` matches and no larger
index below `NumberOfNames` matches - in particular for the larger of two
equal export names, which the descending scan reaches first - the result
is `module_base + Functions[Ordinals[i]]`. -/
theorem lookup_symbol_impl_spec (base : Nat) (tbl : ExportTable)
    (cmp : List Nat → Bool) :
    (lookup_symbol_impl base tbl cmp = none ↔
      ∀ i < tbl.names.length, cmp (tbl.names.getD i []) = false) ∧
    (∀ i, i < tbl.names.length → cmp (tbl.names.getD i []) = true →
      (∀ j, i < j → j < tbl.names.length → cmp (tbl.names.getD j []) = false) →
      lookup_symbol_impl base tbl cmp = some (base + exportRVA tbl i)) :=
  ⟨scanNames_eq_none base tbl cmp tbl.names.length,
    fun i h1 h2 h3 => scanNames_top_match base tbl cmp tbl.names.length i h1 h2 h3⟩

/-- C4 witness: the theorem applied with the strcmp comparator for name
"A" to a table exporting names "A", "B", "A" with ordinals [0, 1, 2] and
function RVAs [0x100, 0x200, 0x300] at base 0x1000: the name "A" appears
at indices 0 and 2, the descending scan hits index 2 first, so the result
is 0x1000 + 0x300 (the higher-index entry wins). -/
theorem lookup_symbol_impl_spec_witness :
    lookup_symbol_name 0x1000
      ⟨[[0x41], [0x42], [0x41]], [0, 1, 2], [0x100, 0x200, 0x300]⟩ [0x41] =
      some (0x1000 + 0x300) :=
  (lookup_symbol_impl_spec 0x1000
      ⟨[[0x41], [0x42], [0x41]], [0, 1, 2], [0x100, 0x200, 0x300]⟩
      (fun e => e == [0x41])).2 2 (by decide) (by decide)
    (by
      intro j h1 h2
      have h3 : j < 3 := by simpa using h2
      omega)

/-! ## Forwarded-export resolution (`common.h`, forwarder branch)

On a forwarder string `"TARGETDLL.FuncName"` the code finds the first
dot, takes `DllNameLen` as the distance to it, and guards
`DllNameLen + 5 > sizeof(DllName)` (with `char DllName[64]`).  It then
runs `strcpy(DllName, ForwardStr)` - which copies the whole forwarder
string up to and including its terminator - and overwrites the five
bytes at `DllNameLen .. DllNameLen + 4` with ".dll\0".  We model the set
of byte indices written into `DllName`, and the resolution outcome.
The forwarder string `fs` is its non-zero bytes, terminator implicit. -/

def forwarderWrites (fs : List Nat) : Option (List Nat) :=
  match fs.findIdx? (fun b => b == 0x2E) with
  | none => none
  | some dlen =>
    if dlen + 5 > 64 then none
    else some (List.range (fs.length + 1) ++
      [dlen, dlen + 1, dlen + 2, dlen + 3, dlen + 4])

/-- Resolution outcome of the forwarder branch (writes aside): split at
the dot, build `take dlen ++ ".dll"`, reject ordinal forwards (function
name starting with U+0023 = number sign), look the target module up and
recurse into it. -/
def forwarderResolve (fs : List Nat) (findMod : List Nat → Option Nat)
    (lookupIn : Nat → List Nat → Option Nat) : Option Nat :=
  match fs.findIdx? (fun b => b == 0x2E) with
  | none => none
  | some dlen =>
    if dlen + 5 > 64 then none
    else
      let funcName := fs.drop (dlen + 1)
      if funcName.headD 0 == 0x23 then none
      else
        match findMod (fs.take dlen ++ [0x2E, 0x64, 0x6C, 0x6C]) with
        | none => none
        | some tbase => lookupIn tbase funcName

/-- The failing forwarder string: DLL-name part "A" (one byte), function
name part of 63 bytes, total length 65. -/
def fsOverflow : List Nat := 0x41 :: 0x2E :: List.replicate 63 0x42

/-- C5: at the forwarder string `fsOverflow` the length guard passes
(DllNameLen = 1, and 1 + 5 is at most 64), yet the `strcpy` writes the
whole 66-byte forwarder string (terminator included) into the 64-byte
`DllName` buffer, in particular at the out-of-bounds indices 64 and 65 -
so the guard does not confine the writes to the buffer.  The ordinal
forward rejection, by contrast, behaves as claimed: a function-name part
starting with the number sign yields a null result for every module
environment. -/
theorem forwarder_buffer_overflow :
    fsOverflow.findIdx? (fun b => b == 0x2E) = some 1 ∧
    ¬(1 + 5 > 64) ∧
    64 ∈ (forwarderWrites fsOverflow).getD [] ∧
    65 ∈ (forwarderWrites fsOverflow).getD [] ∧
    (∀ findMod lookupIn,
      forwarderResolve [0x41, 0x2E, 0x23, 0x42] findMod lookupIn = none) := by
  refine ⟨by decide, by decide, by decide, by decide, ?_⟩
  intro findMod lookupIn
  rfl

/-! ## Kernel-mode module enumeration (`common.h`, `kernelmode::find_module_impl`)

The helper queries `ZwQuerySystemInformation(SystemModuleInformation)` in
a loop, growing the buffer while the status is
STATUS_INFO_LENGTH_MISMATCH (0xC0000004); afterwards it unconditionally
reads the module array through `Buffer` and calls `ExFreePool(Buffer)`.
We model each run by the sequence of query responses it consumes and
record the allocation, free, and array-read events; a buffer is "filled"
only when the final query status is 0 (STATUS_SUCCESS). -/

def STATUS_INFO_LENGTH_MISMATCH : Nat := 0xC0000004

structure QResp where
  status : Nat
  required : Nat

inductive KmEv where
  | allocEv (id : Nat)
  | freeEv (buffer : Option Nat)
  | readModulesEv (buffer : Option Nat) (filled : Bool)
  deriving DecidableEq

def kmLoop : List QResp → Option Nat → Nat → Nat →
    List KmEv × Option Nat × Nat
  | [], buffer, _, _ => ([], buffer, 0)
  | r :: rest, buffer, required, nextId =>
    let preEvs :=
      if required ≠ 0 then
        (match buffer with
          | some b => [KmEv.freeEv (some b)]
          | none => []) ++ [KmEv.allocEv nextId]
      else []
    let buffer1 := if required ≠ 0 then some nextId else buffer
    let nextId1 := if required ≠ 0 then nextId + 1 else nextId
    if r.status = STATUS_INFO_LENGTH_MISMATCH then
      let (evs, bufferF, statusF) := kmLoop rest buffer1 r.required nextId1
      (preEvs ++ evs, bufferF, statusF)
    else
      (preEvs, buffer1, r.status)

def find_module_impl_events (resps : List QResp) : List KmEv :=
  let (evs, bufferF, statusF) := kmLoop resps none 0 0
  evs ++ [KmEv.readModulesEv bufferF (statusF == 0), KmEv.freeEv bufferF]

/-- C6: two failing runs of the kernel-mode enumerator.  When the first
query fails with STATUS_ACCESS_DENIED (0xC0000022) instead of the length
mismatch, the helper reads the module array through the never-allocated
null buffer and passes that null buffer to `ExFreePool` - both forbidden
by the claim.  When a length mismatch is followed by a failing status,
the helper reads the module array from an allocated buffer that the
failed query never filled.  (The buffers that are allocated are freed
exactly once, but the failure paths are not propagated as null results
without touching the buffer, contradicting the claim.) -/
theorem km_enumerator_failure_paths :
    find_module_impl_events [⟨0xC0000022, 0⟩] =
      [KmEv.readModulesEv none false, KmEv.freeEv none] ∧
    KmEv.freeEv none ∈ find_module_impl_events [⟨0xC0000022, 0⟩] ∧
    KmEv.readModulesEv none false ∈ find_module_impl_events [⟨0xC0000022, 0⟩] ∧
    find_module_impl_events
      [⟨STATUS_INFO_LENGTH_MISMATCH, 0x100⟩, ⟨0xC0000022, 0⟩] =
      [KmEv.allocEv 0, KmEv.readModulesEv (some 0) false,
        KmEv.freeEv (some 0)] := by
  decide

end Scfw
